import Mathlib

/-!
# Verification of the proptest core: array combinator, non-zero and EVM leaf generators

This file embeds, in Lean 4, the parts of the `proptest` fork relevant to the
Strategy/ValueTree contract:

* `src/proptest/src/array.rs` — the fixed-arity composite (array) combinator:
  `ArrayValueTree` with its cursor (`shrinker`) and one-level undo state
  (`last_shrinker`), its `simplify`/`complicate`/`current` operations, and the
  `new_tree` constructions for `[S; N]` and `UniformArrayStrategy`.
* `src/proptest/src/arbitrary/non_zero.rs` — the `NonZero*` generators built as
  `any::<base>().prop_filter("must be non-zero", |i| i != 0)
     .prop_map(|i| i.try_into().unwrap())`.
* `src/proptest/src/arbitrary/evm.rs` — the hash (`H128`..`H512`, byte blocks)
  and big-integer (`U128`..`U512`, little-endian `u64` word blocks) leaf
  generators.

Sub-trees of the composite are modelled abstractly: a `ValueTreeOps` record
packages the three `ValueTree` operations of an arbitrary inner tree as pure
state transformers (Rust's `&mut self` receivers become explicit state
passing; the returned `Bool` is paired with the new state).  Rust's
`Result<_, Reason>` becomes `Except String _`, and a possible indexing panic
becomes an `Option` result.
-/

namespace Proptest

/-- The three operations of the Rust `ValueTree` trait for an inner tree with
state type `σ` and value type `V`, as pure state transformers: `simplify` and
`complicate` take the tree state and return the Rust `bool` result together
with the updated state; `current` reads the value. -/
structure ValueTreeOps (σ V : Type) where
  current : σ → V
  simplify : σ → Bool × σ
  complicate : σ → Bool × σ

/-- State of `ArrayValueTree` (array.rs lines 81–85): the sub-trees (the
fixed-size Rust array `[T; N]` becomes a list whose length is the arity `N`),
the cursor `shrinker : usize`, and the one-level undo marker
`last_shrinker : Option<usize>`. -/
structure ArrayState (σ : Type) where
  tree : List σ
  shrinker : Nat
  last_shrinker : Option Nat

/-- `ArrayValueTree::current` (array.rs lines 154–161): the array formed from
each sub-tree's `current`, in order. -/
def arrayCurrent (vt : ValueTreeOps σ V) (s : ArrayState σ) : List V :=
  s.tree.map vt.current

/-- `ArrayValueTree::simplify` (array.rs lines 163–174):
`while shrinker < N { if tree[shrinker].simplify() { last_shrinker = Some(shrinker); return true } else { shrinker += 1 } }; return false`.
The sub-tree call mutates the sub-tree in place whether or not it succeeds, so
both branches write the updated sub-state back. -/
def arraySimplify (vt : ValueTreeOps σ V) (s : ArrayState σ) : Bool × ArrayState σ :=
  if h : s.shrinker < s.tree.length then
    let r := vt.simplify (s.tree.get ⟨s.shrinker, h⟩)
    if r.1 then
      (true, ⟨s.tree.set s.shrinker r.2, s.shrinker, some s.shrinker⟩)
    else
      arraySimplify vt ⟨s.tree.set s.shrinker r.2, s.shrinker + 1, s.last_shrinker⟩
  else
    (false, s)
termination_by s.tree.length - s.shrinker
decreasing_by simp [List.length_set]; omega

/-- `ArrayValueTree::complicate` (array.rs lines 176–188).  The Rust code
indexes `self.tree[shrinker]` without a bounds check; an out-of-bounds index
would panic, which the model renders as `none`. -/
def arrayComplicate (vt : ValueTreeOps σ V) (s : ArrayState σ) :
    Option (Bool × ArrayState σ) :=
  match s.last_shrinker with
  | none => some (false, s)
  | some i =>
    match s.tree.get? i with
    | none => none
    | some t =>
      let r := vt.complicate t
      if r.1 then
        some (true, ⟨s.tree.set i r.2, i, some i⟩)
      else
        some (false, ⟨s.tree.set i r.2, i, none⟩)

/-- A Rust `Strategy` over entropy-source states `R`: `new_tree` consumes
entropy and either yields a tree state or rejects with a reason string. -/
def Strat (σ R : Type) : Type := R → Except String σ × R

/-- The sequential draw underlying `<[S; N] as Strategy>::new_tree`
(array.rs lines 109–112): `self.iter().map(|s| s.new_tree(runner)).collect::<Result<Vec<_>, _>>()`,
drawing sub-trees in index order from the single runner and stopping at the
first rejection. -/
def drawAll : List (Strat σ R) → R → Except String (List σ) × R
  | [], r => (Except.ok [], r)
  | st :: rest, r =>
    match st r with
    | (Except.ok t, r₁) =>
      match drawAll rest r₁ with
      | (Except.ok ts, r₂) => (Except.ok (t :: ts), r₂)
      | (Except.error e, r₂) => (Except.error e, r₂)
    | (Except.error e, r₁) => (Except.error e, r₁)

/-- `<[S; N] as Strategy>::new_tree` (array.rs lines 108–124): draw all
sub-trees in order, then build the `ArrayValueTree` with `shrinker: 0,
last_shrinker: None`. -/
def arrayNewTree (strats : List (Strat σ R)) (r : R) :
    Except String (ArrayState σ) × R :=
  match drawAll strats r with
  | (Except.ok ts, r₁) => (Except.ok ⟨ts, 0, none⟩, r₁)
  | (Except.error e, r₁) => (Except.error e, r₁)

/-- The draw underlying `<UniformArrayStrategy as Strategy>::new_tree`
(array.rs lines 134–136): `iter::repeat_with(|| self.strategy.new_tree(runner)).take(N)`,
i.e. `N` sequential draws from the one strategy. -/
def uniformDraw (st : Strat σ R) : Nat → R → Except String (List σ) × R
  | 0, r => (Except.ok [], r)
  | n + 1, r =>
    match st r with
    | (Except.ok t, r₁) =>
      match uniformDraw st n r₁ with
      | (Except.ok ts, r₂) => (Except.ok (t :: ts), r₂)
      | (Except.error e, r₂) => (Except.error e, r₂)
    | (Except.error e, r₁) => (Except.error e, r₁)

/-- `<UniformArrayStrategy as Strategy>::new_tree` (array.rs lines 133–148). -/
def uniformNewTree (st : Strat σ R) (n : Nat) (r : R) :
    Except String (ArrayState σ) × R :=
  match uniformDraw st n r with
  | (Except.ok ts, r₁) => (Except.ok ⟨ts, 0, none⟩, r₁)
  | (Except.error e, r₁) => (Except.error e, r₁)

/-- The structural invariant of `ArrayValueTree`: the cursor never exceeds the
arity and a recorded last-shrink index is in bounds. -/
def ArrayInv (s : ArrayState σ) : Prop :=
  s.shrinker ≤ s.tree.length ∧ ∀ i, s.last_shrinker = some i → i < s.tree.length

/-- Repeated driver calls to `ArrayValueTree::simplify` (spec §6: the driver
"drives the simplify/complicate loop until `simplify` returns false"),
keeping the state between calls. -/
def iterSimplify (vt : ValueTreeOps σ V) : Nat → ArrayState σ → ArrayState σ
  | 0, s => s
  | k + 1, s => iterSimplify vt k (arraySimplify vt s).2

/-! ### The non-zero generators (non_zero.rs) -/

/-- The filter predicate of `non_zero_impl!` (non_zero.rs line 30): `|i| i != 0`.
All twelve instantiations (`u8`..`u128`, `usize`, `i8`..`i128`, `isize`) use
this same predicate, so the base value is modelled width-generically as `Int`. -/
def nonZeroPred (i : Int) : Bool := i != 0

/-- The `core::num::NonZero*` witness types, width-generically: an integer
carrying the guarantee that it is non-zero. -/
def NonZeroInt : Type := { i : Int // i ≠ 0 }

/-- The conversion of the Map stage (non_zero.rs line 31): `i.try_into()` for a
`NonZero*` target succeeds exactly on non-zero inputs.  The source calls
`.unwrap()` on it, so a `none` here models a panic of the Map stage. -/
def tryIntoNonZero (i : Int) : Option NonZeroInt :=
  if h : i = 0 then none else some ⟨i, h⟩

/-- Modelled from the spec: the `Filter` combinator's `new_tree` is not under
`src/`.  Spec §4.3: it "draws from the inner strategy repeatedly (bounded
retries, default budget is a fixed implementation constant) until `p` holds,
or fails with `Reject` … once the budget is exhausted". -/
def filterNewTree (st : Strat σ R) (cur : σ → V) (p : V → Bool) :
    Nat → R → Except String σ × R
  | 0, r => (Except.error "filter retry budget exhausted", r)
  | b + 1, r =>
    match st r with
    | (Except.ok t, r₁) =>
      if p (cur t) then (Except.ok t, r₁) else filterNewTree st cur p b r₁
    | (Except.error e, r₁) => (Except.error e, r₁)

/-- Modelled from the spec: `Filter::simplify` is not under `src/`.  Spec §4.3:
it "delegates to the inner tree but must re-check `p` on the resulting value;
if the simplified value no longer satisfies `p`, the simplify step is rejected
internally and search continues to the next inner candidate rather than
exposing an invalid value to the driver".  `filterSearch` is that internal
search: run the inner `simplify` until a `p`-valid candidate appears, giving
up (`none`) when the inner tree is exhausted (its `simplify` returns false) or
after `fuel` attempts. -/
def filterSearch (vt : ValueTreeOps σ V) (p : V → Bool) : Nat → σ → Option σ
  | 0, _ => none
  | b + 1, t =>
    let r := vt.simplify t
    if r.1 then
      if p (vt.current r.2) then some r.2 else filterSearch vt p b r.2
    else none

/-- Modelled from the spec (§4.3, the sentence quoted at `filterSearch`): a
rejected simplify step does not expose an invalid value, so the Filter tree
stays at its last valid state and reports `false`. -/
def filterSimplify (vt : ValueTreeOps σ V) (p : V → Bool) (fuel : Nat) (t : σ) :
    Bool × σ :=
  match filterSearch vt p fuel t with
  | some t' => (true, t')
  | none => (false, t)

/-- Modelled from the spec: `Filter::complicate` "delegates directly"
(spec §4.3). -/
def filterComplicate (vt : ValueTreeOps σ V) (t : σ) : Bool × σ :=
  vt.complicate t

/-- One driver-visible shrink call on a Filter-wrapped tree: a `simplify`
(with the fuel available to its internal search) or a `complicate`. -/
inductive FilterOp : Type where
  | s (fuel : Nat)
  | c

/-- Run a sequence of driver shrink calls on a Filter-wrapped tree. -/
def runFilterOps (vt : ValueTreeOps σ V) (p : V → Bool) : List FilterOp → σ → σ
  | [], t => t
  | FilterOp.s f :: ops, t => runFilterOps vt p ops (filterSimplify vt p f t).2
  | FilterOp.c :: ops, t => runFilterOps vt p ops (filterComplicate vt t).2

/-! ### The EVM leaf generators (evm.rs) -/

/-- Little-endian digit sequence to value: `limbsToNat b [d₀, d₁, …]` is
`d₀ + b * (d₁ + b * …)`. -/
def limbsToNat (base : Nat) : List Nat → Nat
  | [] => 0
  | d :: ds => d + base * limbsToNat base ds

/-- Value to its `width` little-endian digits in the given base. -/
def natToLimbs (base : Nat) : Nat → Nat → List Nat
  | 0, _ => []
  | w + 1, n => n % base :: natToLimbs base w (n / base)

/-- `prim_impl!` (evm.rs lines 31–43): `U128/U256/U512` wrap the drawn
`[u64; $u64s]` word block directly (`prop_map(Self)`); the `uint` crate stores
the least significant word first, so the denoted big integer is the
little-endian 2^64-limb value of the block. -/
def uFromWords (ws : List Nat) : Nat := limbsToNat (2 ^ 64) ws

/-- Bit-pattern re-extraction of a `width`-word big integer: its little-endian
2^64-limbs. -/
def uToWords (width : Nat) (n : Nat) : List Nat := natToLimbs (2 ^ 64) width n

/-- `hash_impl!` (evm.rs lines 17–29): `H128/H160/H256/H512::from_slice`
copies the drawn `[u8; $bytes]` block verbatim; the `fixed_hash` types
interpret their bytes big-endian (most significant byte first), so the denoted
value is the base-256 value of the reversed block. -/
def hFromBytes (bs : List Nat) : Nat := limbsToNat 256 bs.reverse

/-- Bit-pattern re-extraction of a `width`-byte hash value: its bytes, most
significant first. -/
def hToBytes (width : Nat) (n : Nat) : List Nat := (natToLimbs 256 width n).reverse

/-! ### Concrete fixtures used by the witness theorems -/

/-- A small concrete sub-tree: the state is a pair `(value, saved)`;
`simplify` decrements a positive value and saves the old one, `complicate`
restores the saved value. -/
def natVT : ValueTreeOps (Nat × Nat) Nat where
  current t := t.1
  simplify t := if t.1 = 0 then (false, t) else (true, (t.1 - 1, t.1))
  complicate t := (true, (t.2, t.2))

/-- A concrete strategy over entropy state `Nat`: draws the entropy counter as
the value and advances it. -/
def constStrat : Strat (Nat × Nat) Nat :=
  fun r => (Except.ok (r, 0), r + 1)

/-- A concrete strategy that always rejects. -/
def rejStrat : Strat (Nat × Nat) Nat :=
  fun r => (Except.error "rejected", r)

/-- A concrete inner integer tree for the Filter fixtures: the state is the
integer itself, `simplify` moves it one step toward zero but stops at ±1,
`complicate` leaves it in place. -/
def intVT : ValueTreeOps Int Int where
  current t := t
  simplify t := if t = 0 ∨ t = 1 ∨ t = -1 then (false, t)
                else if t < 0 then (true, t + 1) else (true, t - 1)
  complicate t := (false, t)

/-- A concrete base-integer strategy for the Filter fixtures: draws the
entropy counter (so the first draw can be `0` and must be filtered out). -/
def intStrat : Strat Int Int :=
  fun r => (Except.ok r, r + 1)

/-! ### Helper lemmas about `List.set` -/

theorem set_get_self (l : List σ) (i : Nat) (h : i < l.length) :
    l.set i (l.get ⟨i, h⟩) = l := by
  induction l generalizing i with
  | nil => simp at h
  | cons x xs ih =>
    cases i with
    | zero => rfl
    | succ j =>
      simp only [List.set, List.get_cons_succ]
      rw [ih j (by simpa using h)]

theorem map_set_same (f : σ → V) (l : List σ) (i : Nat) (h : i < l.length) (a : σ)
    (ha : f a = f (l.get ⟨i, h⟩)) : (l.set i a).map f = l.map f := by
  induction l generalizing i with
  | nil => simp at h
  | cons x xs ih =>
    cases i with
    | zero => simpa using ha
    | succ j =>
      simp only [List.set, List.map_cons, List.cons.injEq, true_and]
      exact ih j (by simpa using h) (by simpa using ha)

/-! ### Step lemmas for `arraySimplify` -/

theorem arraySimplify_stop (vt : ValueTreeOps σ V) (s : ArrayState σ)
    (h : ¬ s.shrinker < s.tree.length) : arraySimplify vt s = (false, s) := by
  rw [arraySimplify]
  simp [h]

theorem arraySimplify_succ (vt : ValueTreeOps σ V) (s : ArrayState σ)
    (h : s.shrinker < s.tree.length)
    (hs : (vt.simplify (s.tree.get ⟨s.shrinker, h⟩)).1 = true) :
    arraySimplify vt s =
      (true, ⟨s.tree.set s.shrinker (vt.simplify (s.tree.get ⟨s.shrinker, h⟩)).2,
              s.shrinker, some s.shrinker⟩) := by
  rw [arraySimplify]
  simp only [List.get_eq_getElem] at hs
  simp [h, hs]

theorem arraySimplify_fail (vt : ValueTreeOps σ V) (s : ArrayState σ)
    (h : s.shrinker < s.tree.length)
    (hs : (vt.simplify (s.tree.get ⟨s.shrinker, h⟩)).1 = false) :
    arraySimplify vt s =
      arraySimplify vt ⟨s.tree.set s.shrinker (vt.simplify (s.tree.get ⟨s.shrinker, h⟩)).2,
                        s.shrinker + 1, s.last_shrinker⟩ := by
  rw [arraySimplify]
  simp only [List.get_eq_getElem] at hs
  simp [h, hs]

theorem arraySimplify_tree_length (vt : ValueTreeOps σ V) (s : ArrayState σ) :
    (arraySimplify vt s).2.tree.length = s.tree.length := by
  induction s using arraySimplify.induct vt with
  | case1 s h r hr =>
    rw [arraySimplify_succ vt s h hr]
    simp [List.length_set]
  | case2 s h r hr ih =>
    rw [arraySimplify_fail vt s h (by simpa using hr)]
    simpa [List.length_set] using ih
  | case3 s h =>
    rw [arraySimplify_stop vt s h]

theorem arraySimplify_cursor (vt : ValueTreeOps σ V) (s : ArrayState σ)
    (hle : s.shrinker ≤ s.tree.length) :
    ((arraySimplify vt s).1 = false ↔ (arraySimplify vt s).2.shrinker = s.tree.length) := by
  induction s using arraySimplify.induct vt with
  | case1 s h r hr =>
    rw [arraySimplify_succ vt s h hr]
    simp only
    constructor
    · intro hc; cases hc
    · intro hc; omega
  | case2 s h r hr ih =>
    rw [arraySimplify_fail vt s h (by simpa using hr)]
    have := ih (by simpa [List.length_set] using h)
    simpa [List.length_set] using this
  | case3 s h =>
    rw [arraySimplify_stop vt s h]
    simp only
    constructor
    · intro _; omega
    · intro _; trivial

theorem arraySimplify_inv (vt : ValueTreeOps σ V) (s : ArrayState σ)
    (hinv : ArrayInv s) : ArrayInv (arraySimplify vt s).2 := by
  induction s using arraySimplify.induct vt with
  | case1 s h r hr =>
    rw [arraySimplify_succ vt s h hr]
    refine ⟨by simpa [List.length_set] using Nat.le_of_lt h, ?_⟩
    intro i hi
    simp only at hi
    cases hi
    simpa [List.length_set] using h
  | case2 s h r hr ih =>
    rw [arraySimplify_fail vt s h (by simpa using hr)]
    refine ih ⟨by simpa [List.length_set] using h, ?_⟩
    intro i hi
    simpa [List.length_set] using hinv.2 i hi
  | case3 s h =>
    rw [arraySimplify_stop vt s h]
    exact hinv

theorem arrayComplicate_total (vt : ValueTreeOps σ V) (s : ArrayState σ)
    (hinv : ArrayInv s) :
    ∃ b s', arrayComplicate vt s = some (b, s') ∧ ArrayInv s' := by
  match hl : s.last_shrinker with
  | none =>
    exact ⟨false, s, by rw [arrayComplicate, hl], hinv⟩
  | some i =>
    have hi : i < s.tree.length := hinv.2 i hl
    have hget : s.tree[i]? = some s.tree[i] := List.getElem?_eq_getElem hi
    by_cases hb : (vt.complicate s.tree[i]).1 = true
    · refine ⟨true, ⟨s.tree.set i (vt.complicate s.tree[i]).2, i, some i⟩, ?_, ?_⟩
      · rw [arrayComplicate, hl]
        simp [hget, hb]
      · exact ⟨by simpa [List.length_set] using Nat.le_of_lt hi,
          fun j hj => by cases hj; simpa [List.length_set] using hi⟩
    · refine ⟨false, ⟨s.tree.set i (vt.complicate s.tree[i]).2, i, none⟩, ?_, ?_⟩
      · rw [arrayComplicate, hl]
        simp [hget, hb]
      · exact ⟨by simpa [List.length_set] using Nat.le_of_lt hi, fun j hj => by cases hj⟩

theorem arrayNewTree_ok (strats : List (Strat σ R)) (r r' : R) (s : ArrayState σ)
    (h : arrayNewTree strats r = (Except.ok s, r')) :
    drawAll strats r = (Except.ok s.tree, r') ∧ s.shrinker = 0 ∧
      s.last_shrinker = none := by
  rw [arrayNewTree] at h
  match hd : drawAll strats r with
  | (Except.ok ts, r₁) =>
    rw [hd] at h
    simp only [Prod.mk.injEq, Except.ok.injEq] at h
    obtain ⟨hs, hr⟩ := h
    subst hs; subst hr
    exact ⟨rfl, rfl, rfl⟩
  | (Except.error e, r₁) =>
    rw [hd] at h
    simp at h

theorem uniformNewTree_ok (st : Strat σ R) (n : Nat) (r r' : R) (s : ArrayState σ)
    (h : uniformNewTree st n r = (Except.ok s, r')) :
    uniformDraw st n r = (Except.ok s.tree, r') ∧ s.shrinker = 0 ∧
      s.last_shrinker = none := by
  rw [uniformNewTree] at h
  match hd : uniformDraw st n r with
  | (Except.ok ts, r₁) =>
    rw [hd] at h
    simp only [Prod.mk.injEq, Except.ok.injEq] at h
    obtain ⟨hs, hr⟩ := h
    subst hs; subst hr
    exact ⟨rfl, rfl, rfl⟩
  | (Except.error e, r₁) =>
    rw [hd] at h
    simp at h

/-! ### Claim theorems for the composite array combinator -/

/-- C1: `ArrayValueTree::simplify` scans the sub-trees left to right starting
at the cursor: at an in-bounds cursor a successful sub-simplify records
`last_shrinker = some cursor`, keeps the cursor where it is, and returns
true; a failed sub-simplify increments the cursor and tries the next
sub-tree; and the call returns false exactly when the cursor has reached the
arity `N`. -/
theorem claim_C1 (vt : ValueTreeOps σ V) (s : ArrayState σ)
    (hle : s.shrinker ≤ s.tree.length) :
    (∀ h : s.shrinker < s.tree.length,
      ((vt.simplify (s.tree.get ⟨s.shrinker, h⟩)).1 = true →
        arraySimplify vt s =
          (true, ⟨s.tree.set s.shrinker (vt.simplify (s.tree.get ⟨s.shrinker, h⟩)).2,
                  s.shrinker, some s.shrinker⟩)) ∧
      ((vt.simplify (s.tree.get ⟨s.shrinker, h⟩)).1 = false →
        arraySimplify vt s =
          arraySimplify vt ⟨s.tree.set s.shrinker (vt.simplify (s.tree.get ⟨s.shrinker, h⟩)).2,
                            s.shrinker + 1, s.last_shrinker⟩)) ∧
    ((arraySimplify vt s).1 = false ↔ (arraySimplify vt s).2.shrinker = s.tree.length) :=
  ⟨fun h => ⟨arraySimplify_succ vt s h, arraySimplify_fail vt s h⟩,
   arraySimplify_cursor vt s hle⟩

/-- Witness for C1 at a concrete two-element tree. -/
theorem claim_C1_witness :
    (arraySimplify natVT ⟨[(1, 0), (0, 0)], 0, none⟩).1 = false ↔
    (arraySimplify natVT ⟨[(1, 0), (0, 0)], 0, none⟩).2.shrinker = 2 := by
  have h := claim_C1 natVT ⟨[(1, 0), (0, 0)], 0, none⟩ (by simp)
  simpa using h.2

/-- C2: `ArrayValueTree::complicate` with `last_shrinker = some i` moves the
cursor to `i` and delegates to sub-tree `i`: on its success it returns true
and keeps `last_shrinker = some i`; on its refusal it clears `last_shrinker`
and returns false; with `last_shrinker = none` it returns false leaving the
state untouched. -/
theorem claim_C2 (vt : ValueTreeOps σ V) (s : ArrayState σ) :
    (s.last_shrinker = none → arrayComplicate vt s = some (false, s)) ∧
    (∀ i, s.last_shrinker = some i → ∀ h : i < s.tree.length,
      ((vt.complicate s.tree[i]).1 = true →
        arrayComplicate vt s =
          some (true, ⟨s.tree.set i (vt.complicate s.tree[i]).2, i, some i⟩)) ∧
      ((vt.complicate s.tree[i]).1 = false →
        arrayComplicate vt s =
          some (false, ⟨s.tree.set i (vt.complicate s.tree[i]).2, i, none⟩))) := by
  constructor
  · intro hl
    rw [arrayComplicate, hl]
  · intro i hl h
    have hget : s.tree[i]? = some s.tree[i] := List.getElem?_eq_getElem h
    constructor <;> intro hb <;> rw [arrayComplicate, hl] <;> simp [hget, hb]

/-- Witness for C2: a one-element tree with a recorded shrink step. -/
theorem claim_C2_witness :
    arrayComplicate natVT ⟨[(0, 5)], 0, some 0⟩ = some (true, ⟨[(5, 5)], 0, some 0⟩) := by
  have h := ((claim_C2 natVT ⟨[(0, 5)], 0, some 0⟩).2 0 rfl (by decide)).1 (by decide)
  simpa using h

/-- C10: the composite operations preserve the structural invariant
`shrinker ≤ N` and `last_shrinker = some i → i < N`, and under it
`complicate`'s unchecked indexing never goes out of bounds (no panic: the
result is always `some`). -/
theorem claim_C10 (vt : ValueTreeOps σ V) (s : ArrayState σ) (hinv : ArrayInv s) :
    ArrayInv (arraySimplify vt s).2 ∧
    ∃ b s', arrayComplicate vt s = some (b, s') ∧ ArrayInv s' :=
  ⟨arraySimplify_inv vt s hinv, arrayComplicate_total vt s hinv⟩

/-- Witness for C10 at a concrete state with a recorded shrink index. -/
theorem claim_C10_witness :
    ArrayInv (arraySimplify natVT ⟨[(1, 0)], 0, some 0⟩).2 ∧
    ∃ b s', arrayComplicate natVT ⟨[(1, 0)], 0, some 0⟩ = some (b, s') ∧ ArrayInv s' :=
  claim_C10 natVT ⟨[(1, 0)], 0, some 0⟩
    ⟨by simp, fun i hi => by simp_all⟩

/-- C4: on a freshly constructed composite tree (either construction, which
sets `last_shrinker: None`), a `complicate` before any `simplify` returns
false and leaves `current()` unchanged. -/
theorem claim_C4 (vt : ValueTreeOps σ V) :
    (∀ (strats : List (Strat σ R)) (r r' : R) (s : ArrayState σ),
      arrayNewTree strats r = (Except.ok s, r') →
      ∃ s', arrayComplicate vt s = some (false, s') ∧
        arrayCurrent vt s' = arrayCurrent vt s) ∧
    (∀ (st : Strat σ R) (n : Nat) (r r' : R) (s : ArrayState σ),
      uniformNewTree st n r = (Except.ok s, r') →
      ∃ s', arrayComplicate vt s = some (false, s') ∧
        arrayCurrent vt s' = arrayCurrent vt s) := by
  constructor
  · intro strats r r' s h
    have hl := (arrayNewTree_ok strats r r' s h).2.2
    exact ⟨s, by rw [arrayComplicate, hl], rfl⟩
  · intro st n r r' s h
    have hl := (uniformNewTree_ok st n r r' s h).2.2
    exact ⟨s, by rw [arrayComplicate, hl], rfl⟩

/-- Witness for C4: a freshly drawn one-element tree. -/
theorem claim_C4_witness :
    ∃ s', arrayComplicate natVT ⟨[(0, 0)], 0, none⟩ = some (false, s') ∧
      arrayCurrent natVT s' = arrayCurrent natVT ⟨[(0, 0)], 0, none⟩ :=
  (claim_C4 natVT).1 [constStrat] 0 1 ⟨[(0, 0)], 0, none⟩ rfl

theorem drawAll_length (strats : List (Strat σ R)) (r r' : R) (ts : List σ)
    (h : drawAll strats r = (Except.ok ts, r')) : ts.length = strats.length := by
  induction strats generalizing r ts with
  | nil =>
    rw [drawAll] at h
    simp only [Prod.mk.injEq, Except.ok.injEq] at h
    rw [← h.1]
    rfl
  | cons s0 rest ih =>
    rw [drawAll] at h
    split at h
    · rename_i t ra h0
      split at h
      · rename_i ts' rb hd
        simp only [Prod.mk.injEq, Except.ok.injEq] at h
        obtain ⟨h1, h2⟩ := h
        subst h2
        rw [← h1]
        simpa using ih ra ts' hd
      · simp at h
    · simp at h

theorem drawAll_reject (pre post : List (Strat σ R)) (st : Strat σ R)
    (r r₁ r₂ : R) (ts : List σ) (e : String)
    (hpre : drawAll pre r = (Except.ok ts, r₁))
    (hst : st r₁ = (Except.error e, r₂)) :
    drawAll (pre ++ st :: post) r = (Except.error e, r₂) := by
  induction pre generalizing r ts with
  | nil =>
    rw [drawAll] at hpre
    simp only [Prod.mk.injEq, Except.ok.injEq] at hpre
    rw [← hpre.2] at hst
    rw [List.nil_append, drawAll, hst]
  | cons s0 pre ih =>
    rw [drawAll] at hpre
    split at hpre
    · rename_i t ra h0
      split at hpre
      · rename_i ts' rb hd
        simp only [Prod.mk.injEq, Except.ok.injEq] at hpre
        rw [hpre.2] at hd
        have hrec := ih ra ts' hd
        simp only [List.cons_append, drawAll, h0, List.append_eq, hrec]
      · simp at hpre
    · simp at hpre

theorem uniformDraw_eq_drawAll (st : Strat σ R) (n : Nat) (r : R) :
    uniformDraw st n r = drawAll (List.replicate n st) r := by
  induction n generalizing r with
  | zero => rfl
  | succ n ih =>
    rw [List.replicate_succ]
    match h0 : st r with
    | (Except.ok t, r₁) => simp only [uniformDraw, drawAll, h0, ih r₁]
    | (Except.error e, r₁) => simp only [uniformDraw, drawAll, h0]

/-- C6: `new_tree` for the composite draws the sub-trees in index order from
the one runner (the resulting tree of sub-trees is exactly the sequential
draw, of the declared arity); a rejection of any sub-draw makes the whole
composite draw a rejection (no partial tree is returned); a successful draw
starts with cursor `0` and no recorded shrink step; and the uniform
construction is the `N`-fold replication of its one strategy. -/
theorem claim_C6 {σ R : Type} :
    (∀ (strats : List (Strat σ R)) (r r' : R) (s : ArrayState σ),
      arrayNewTree strats r = (Except.ok s, r') →
      drawAll strats r = (Except.ok s.tree, r') ∧ s.tree.length = strats.length ∧
      s.shrinker = 0 ∧ s.last_shrinker = none) ∧
    (∀ (pre post : List (Strat σ R)) (st : Strat σ R) (r r₁ r₂ : R)
       (ts : List σ) (e : String),
      drawAll pre r = (Except.ok ts, r₁) → st r₁ = (Except.error e, r₂) →
      arrayNewTree (pre ++ st :: post) r = (Except.error e, r₂)) ∧
    (∀ (st : Strat σ R) (n : Nat) (r : R),
      uniformNewTree st n r = arrayNewTree (List.replicate n st) r) := by
  refine ⟨?_, ?_, ?_⟩
  · intro strats r r' s h
    obtain ⟨hd, h0, hl⟩ := arrayNewTree_ok strats r r' s h
    exact ⟨hd, drawAll_length strats r r' s.tree hd, h0, hl⟩
  · intro pre post st r r₁ r₂ ts e hpre hst
    rw [arrayNewTree, drawAll_reject pre post st r r₁ r₂ ts e hpre hst]
  · intro st n r
    rw [uniformNewTree, arrayNewTree, uniformDraw_eq_drawAll]

/-- Witness for C6: a rejecting second sub-draw rejects the whole composite
draw. -/
theorem claim_C6_witness :
    arrayNewTree ([constStrat] ++ rejStrat :: []) 0 = (Except.error "rejected", 1) :=
  claim_C6.2.1 [constStrat] [] rejStrat 0 1 1 [(0, 0)] "rejected" rfl rfl

/-- C3: after `ArrayValueTree::simplify` returns true, one immediately
following `complicate` returns true and restores `current()` to the
pre-simplify value, provided each sub-tree honours the single-level undo
round-trip itself (its `complicate` right after a successful `simplify`
succeeds and restores the sub-value exactly) and a failed sub-`simplify`
leaves the sub-value unchanged. -/
theorem claim_C3 (vt : ValueTreeOps σ V)
    (hRT : ∀ t, (vt.simplify t).1 = true →
      (vt.complicate (vt.simplify t).2).1 = true ∧
      vt.current (vt.complicate (vt.simplify t).2).2 = vt.current t)
    (hF : ∀ t, (vt.simplify t).1 = false →
      vt.current (vt.simplify t).2 = vt.current t)
    (s : ArrayState σ) (hs : (arraySimplify vt s).1 = true) :
    ∃ s', arrayComplicate vt (arraySimplify vt s).2 = some (true, s') ∧
      arrayCurrent vt s' = arrayCurrent vt s := by
  induction s using arraySimplify.induct vt with
  | case1 s h r hr =>
    rw [arraySimplify_succ vt s h hr]
    have hget : (s.tree.set s.shrinker (vt.simplify (s.tree.get ⟨s.shrinker, h⟩)).2)[s.shrinker]? =
        some (vt.simplify (s.tree.get ⟨s.shrinker, h⟩)).2 :=
      List.getElem?_set_self h
    obtain ⟨hb, hcur⟩ := hRT (s.tree.get ⟨s.shrinker, h⟩) hr
    refine ⟨⟨s.tree.set s.shrinker
              (vt.complicate (vt.simplify (s.tree.get ⟨s.shrinker, h⟩)).2).2,
             s.shrinker, some s.shrinker⟩, ?_, ?_⟩
    · rw [arrayComplicate]
      simp only [List.get_eq_getElem] at hget hb
      simp [hget, hb, List.set_set]
    · simp only [arrayCurrent]
      exact map_set_same vt.current s.tree s.shrinker h
        (vt.complicate (vt.simplify (s.tree.get ⟨s.shrinker, h⟩)).2).2 hcur
  | case2 s h r hr ih =>
    rw [arraySimplify_fail vt s h (by simpa using hr)] at hs ⊢
    obtain ⟨s', h1, h2⟩ := ih hs
    refine ⟨s', h1, h2.trans ?_⟩
    simp only [arrayCurrent]
    exact map_set_same vt.current s.tree s.shrinker h
      (vt.simplify (s.tree.get ⟨s.shrinker, h⟩)).2 (hF _ (by simpa using hr))
  | case3 s h =>
    rw [arraySimplify_stop vt s h] at hs
    cases hs

/-- Witness for C3: the one-element tree at value 1 simplifies to 0 and the
immediate `complicate` restores 1. -/
theorem claim_C3_witness :
    ∃ s', arrayComplicate natVT (arraySimplify natVT ⟨[(1, 0)], 0, none⟩).2 = some (true, s') ∧
      arrayCurrent natVT s' = arrayCurrent natVT ⟨[(1, 0)], 0, none⟩ := by
  refine claim_C3 natVT ?_ ?_ ⟨[(1, 0)], 0, none⟩
    (by rw [arraySimplify_succ natVT ⟨[(1, 0)], 0, none⟩ (by decide) (by decide)])
  · intro t ht
    constructor
    · rfl
    · by_cases h0 : t.1 = 0
      · rw [natVT] at ht; simp [h0] at ht
      · simp [natVT, h0]
  · intro t ht
    by_cases h0 : t.1 = 0
    · simp [natVT, h0]
    · rw [natVT] at ht; simp [h0] at ht

/-! ### Lemmas for full exhaustion (C5): sub-trees whose failed `simplify` is a
state no-op -/

theorem sum_map_set_lt (μ : σ → Nat) (l : List σ) (i : Nat) (hi : i < l.length)
    (a : σ) (ha : μ a < μ (l.get ⟨i, hi⟩)) :
    ((l.set i a).map μ).sum < (l.map μ).sum := by
  induction l generalizing i with
  | nil => simp at hi
  | cons x xs ih =>
    cases i with
    | zero =>
      simp only [List.set, List.map_cons, List.sum_cons]
      have : μ a < μ x := by simpa using ha
      omega
    | succ j =>
      simp only [List.set, List.map_cons, List.sum_cons]
      have := ih j (by simpa using hi) (by simpa using ha)
      omega

theorem arraySimplify_noop_false (vt : ValueTreeOps σ V)
    (hF : ∀ t, (vt.simplify t).1 = false → (vt.simplify t).2 = t)
    (s : ArrayState σ) (hle : s.shrinker ≤ s.tree.length)
    (hfalse : (arraySimplify vt s).1 = false) :
    (arraySimplify vt s).2 = ⟨s.tree, s.tree.length, s.last_shrinker⟩ ∧
    ∀ i x, s.shrinker ≤ i → s.tree[i]? = some x → (vt.simplify x).1 = false := by
  induction s using arraySimplify.induct vt with
  | case1 s h r hr =>
    rw [arraySimplify_succ vt s h hr] at hfalse
    cases hfalse
  | case2 s h r hr ih =>
    have hr' : (vt.simplify (s.tree.get ⟨s.shrinker, h⟩)).1 = false := by simpa using hr
    have hrdef : r = vt.simplify (s.tree.get ⟨s.shrinker, h⟩) := rfl
    rw [hrdef] at ih
    have hset : s.tree.set s.shrinker (vt.simplify (s.tree.get ⟨s.shrinker, h⟩)).2 = s.tree := by
      rw [hF _ hr']
      exact set_get_self s.tree s.shrinker h
    rw [arraySimplify_fail vt s h hr'] at hfalse ⊢
    simp only [hset] at ih hfalse ⊢
    obtain ⟨ha, hstuck⟩ := ih (by simpa using Nat.succ_le_of_lt h) hfalse
    refine ⟨ha, ?_⟩
    intro i x hge hx
    rcases Nat.eq_or_lt_of_le hge with heq | hlt
    · cases heq
      rw [List.getElem?_eq_getElem h] at hx
      injection hx with hx
      rw [← hx]
      simpa using hr'
    · exact hstuck i x hlt hx
  | case3 s h =>
    have hc : s.shrinker = s.tree.length := Nat.le_antisymm hle (Nat.le_of_not_lt h)
    rw [arraySimplify_stop vt s h]
    refine ⟨?_, ?_⟩
    · show s = _
      rw [← hc]
    · intro i x hge hx
      have hnone : s.tree[i]? = none := List.getElem?_eq_none_iff.mpr (by omega)
      rw [hnone] at hx
      cases hx

theorem arraySimplify_noop_true (vt : ValueTreeOps σ V)
    (hF : ∀ t, (vt.simplify t).1 = false → (vt.simplify t).2 = t)
    (s : ArrayState σ) (htrue : (arraySimplify vt s).1 = true) :
    ∃ c y, c < s.tree.length ∧ s.tree[c]? = some y ∧ s.shrinker ≤ c ∧
      (∀ j x, s.shrinker ≤ j → j < c → s.tree[j]? = some x →
        (vt.simplify x).1 = false) ∧
      (vt.simplify y).1 = true ∧
      (arraySimplify vt s).2 = ⟨s.tree.set c (vt.simplify y).2, c, some c⟩ := by
  induction s using arraySimplify.induct vt with
  | case1 s h r hr =>
    refine ⟨s.shrinker, s.tree[s.shrinker], h, List.getElem?_eq_getElem h,
      Nat.le_refl _, ?_, by simpa using hr, ?_⟩
    · intro j x h1 h2 hx
      exact absurd (Nat.lt_of_le_of_lt h1 h2) (by omega)
    · rw [arraySimplify_succ vt s h hr]
      rfl
  | case2 s h r hr ih =>
    have hr' : (vt.simplify (s.tree.get ⟨s.shrinker, h⟩)).1 = false := by simpa using hr
    have hrdef : r = vt.simplify (s.tree.get ⟨s.shrinker, h⟩) := rfl
    rw [hrdef] at ih
    have hset : s.tree.set s.shrinker (vt.simplify (s.tree.get ⟨s.shrinker, h⟩)).2 = s.tree := by
      rw [hF _ hr']
      exact set_get_self s.tree s.shrinker h
    rw [arraySimplify_fail vt s h hr'] at htrue ⊢
    simp only [hset] at ih htrue ⊢
    obtain ⟨c, y, hc, hy, hge, hscan, hsucc, hstate⟩ := ih htrue
    refine ⟨c, y, hc, hy, by omega, ?_, hsucc, hstate⟩
    intro j x h1 h2 hx
    rcases Nat.eq_or_lt_of_le h1 with heq | hlt
    · cases heq
      rw [List.getElem?_eq_getElem h] at hx
      injection hx with hx
      rw [← hx]
      simpa using hr'
    · exact hscan j x hlt h2 hx
  | case3 s h =>
    rw [arraySimplify_stop vt s h] at htrue
    cases htrue

/-- C5: a composite tree whose sub-trees strictly shrink on every successful
`simplify` (witnessed by a measure `μ`) and whose failed `simplify` is a
state no-op reaches, after finitely many `simplify` calls with no interleaved
`complicate`, a state where `simplify` returns false and every sub-tree
individually also returns false from its own `simplify`. -/
theorem claim_C5 (vt : ValueTreeOps σ V) (μ : σ → Nat)
    (hF : ∀ t, (vt.simplify t).1 = false → (vt.simplify t).2 = t)
    (hμ : ∀ t, (vt.simplify t).1 = true → μ (vt.simplify t).2 < μ t)
    (s : ArrayState σ) (hle : s.shrinker ≤ s.tree.length)
    (hP : ∀ i x, i < s.shrinker → s.tree[i]? = some x →
      (vt.simplify x).1 = false) :
    ∃ k, (arraySimplify vt (iterSimplify vt k s)).1 = false ∧
      ∀ x ∈ (arraySimplify vt (iterSimplify vt k s)).2.tree,
        (vt.simplify x).1 = false := by
  have main : ∀ (N : Nat) (s : ArrayState σ), (s.tree.map μ).sum = N →
      s.shrinker ≤ s.tree.length →
      (∀ i x, i < s.shrinker → s.tree[i]? = some x →
        (vt.simplify x).1 = false) →
      ∃ k, (arraySimplify vt (iterSimplify vt k s)).1 = false ∧
        ∀ x ∈ (arraySimplify vt (iterSimplify vt k s)).2.tree,
          (vt.simplify x).1 = false := by
    intro N
    induction N using Nat.strong_induction_on with
    | _ N ihN =>
      intro s hsum hle hP
      by_cases hres : (arraySimplify vt s).1 = true
      · obtain ⟨c, y, hc, hy, hge, hscan, hsucc, hstate⟩ :=
          arraySimplify_noop_true vt hF s hres
        have hyy : y = s.tree[c] := by
          rw [List.getElem?_eq_getElem hc] at hy
          injection hy with hy
          rw [hy]
        subst hyy
        have hsum₁ : (((s.tree.set c (vt.simplify s.tree[c]).2).map μ).sum) < N := by
          rw [← hsum]
          exact sum_map_set_lt μ s.tree c hc _ (hμ _ hsucc)
        have hle₁ : c ≤ (s.tree.set c (vt.simplify s.tree[c]).2).length := by
          simp only [List.length_set]
          omega
        have hP₁ : ∀ i x, i < c →
            (s.tree.set c (vt.simplify s.tree[c]).2)[i]? = some x →
            (vt.simplify x).1 = false := by
          intro i x hilt hx
          rw [List.getElem?_set_ne (by omega)] at hx
          by_cases hcase : i < s.shrinker
          · exact hP i x hcase hx
          · exact hscan i x (Nat.le_of_not_lt hcase) hilt hx
        obtain ⟨k, hk1, hk2⟩ := ihN _ hsum₁
          ⟨s.tree.set c (vt.simplify s.tree[c]).2, c, some c⟩ rfl hle₁ hP₁
        refine ⟨k + 1, ?_, ?_⟩
        · rw [iterSimplify, hstate]
          exact hk1
        · rw [iterSimplify, hstate]
          exact hk2
      · have hfalse : (arraySimplify vt s).1 = false := by
          simpa using hres
        obtain ⟨hstate, hstuck⟩ := arraySimplify_noop_false vt hF s hle hfalse
        refine ⟨0, hfalse, ?_⟩
        show ∀ x ∈ (arraySimplify vt s).2.tree, (vt.simplify x).1 = false
        rw [hstate]
        intro x hx
        obtain ⟨⟨i, hi⟩, hxi⟩ := List.mem_iff_get.mp hx
        have hx' : s.tree[i]? = some x := by
          rw [List.getElem?_eq_getElem hi, ← hxi]
          rfl
        by_cases hcase : i < s.shrinker
        · exact hP i x hcase hx'
        · exact hstuck i x (Nat.le_of_not_lt hcase) hx'
  exact main ((s.tree.map μ).sum) s rfl hle hP

/-- Witness for C5: a two-element tree at values 2 and 1 is exhausted after
finitely many `simplify` calls. -/
theorem claim_C5_witness :
    ∃ k, (arraySimplify natVT (iterSimplify natVT k ⟨[(2, 0), (1, 0)], 0, none⟩)).1 = false ∧
      ∀ x ∈ (arraySimplify natVT (iterSimplify natVT k ⟨[(2, 0), (1, 0)], 0, none⟩)).2.tree,
        (natVT.simplify x).1 = false := by
  refine claim_C5 natVT (fun t => t.1) ?_ ?_ ⟨[(2, 0), (1, 0)], 0, none⟩ (by decide) ?_
  · intro t ht
    by_cases h0 : t.1 = 0
    · simp [natVT, h0]
    · rw [natVT] at ht; simp [h0] at ht
  · intro t ht
    by_cases h0 : t.1 = 0
    · rw [natVT] at ht; simp [h0] at ht
    · simp [natVT, h0]; omega
  · intro i x hilt hx
    exact absurd hilt (Nat.not_lt_zero i)

/-! ### The non-zero generators: claims C7 and C8 -/

theorem filterNewTree_ok (st : Strat σ R) (cur : σ → V) (p : V → Bool)
    (budget : Nat) (r r' : R) (t : σ)
    (h : filterNewTree st cur p budget r = (Except.ok t, r')) : p (cur t) = true := by
  induction budget generalizing r with
  | zero =>
    rw [filterNewTree] at h
    simp at h
  | succ b ih =>
    rw [filterNewTree] at h
    split at h
    · rename_i t0 r₁ h0
      split at h
      · rename_i hp
        simp only [Prod.mk.injEq, Except.ok.injEq] at h
        rw [← h.1]
        exact hp
      · exact ih r₁ h
    · simp at h

theorem filterSearch_some (vt : ValueTreeOps σ V) (p : V → Bool)
    (fuel : Nat) (t t' : σ) (h : filterSearch vt p fuel t = some t') :
    p (vt.current t') = true := by
  induction fuel generalizing t with
  | zero =>
    rw [filterSearch] at h
    cases h
  | succ f ih =>
    rw [filterSearch] at h
    split at h
    · split at h
      · rename_i hp
        injection h with h
        rw [← h]
        exact hp
      · exact ih _ h
    · cases h

theorem filterSimplify_valid (vt : ValueTreeOps σ V) (p : V → Bool)
    (fuel : Nat) (t : σ) (ht : p (vt.current t) = true) :
    p (vt.current (filterSimplify vt p fuel t).2) = true := by
  rw [filterSimplify]
  split
  · rename_i t' hs
    exact filterSearch_some vt p fuel t t' hs
  · exact ht

theorem runFilterOps_valid (vt : ValueTreeOps σ V) (p : V → Bool)
    (hC : ∀ t, p (vt.current t) = true → p (vt.current (vt.complicate t).2) = true)
    (ops : List FilterOp) (t : σ) (ht : p (vt.current t) = true) :
    p (vt.current (runFilterOps vt p ops t)) = true := by
  induction ops generalizing t with
  | nil => exact ht
  | cons op ops ih =>
    cases op with
    | s f => exact ih _ (filterSimplify_valid vt p f t ht)
    | c => exact ih _ (hC t ht)

/-- C7: the non-zero integer generators (a Filter with predicate `i != 0`
over the primitive integer generator of each width, as built by
`non_zero_impl!`) never expose zero: whenever the filtered `new_tree`
succeeds, `current()` is non-zero for any entropy input, and it stays
non-zero throughout any sequence of `simplify`/`complicate` calls, given
that the base tree's `complicate` only returns previously validated (hence
non-zero) values as the spec asserts of complication. -/
theorem claim_C7 (st : Strat σ R) (vt : ValueTreeOps σ Int)
    (hC : ∀ t, nonZeroPred (vt.current t) = true →
      nonZeroPred (vt.current (vt.complicate t).2) = true)
    (budget : Nat) (r r' : R) (t₀ : σ)
    (hnew : filterNewTree st vt.current nonZeroPred budget r = (Except.ok t₀, r')) :
    ∀ ops, vt.current (runFilterOps vt nonZeroPred ops t₀) ≠ 0 := by
  intro ops
  have h0 : nonZeroPred (vt.current t₀) = true :=
    filterNewTree_ok st vt.current nonZeroPred budget r r' t₀ hnew
  have hv := runFilterOps_valid vt nonZeroPred hC ops t₀ h0
  simpa [nonZeroPred] using hv

/-- Witness for C7: a concrete base strategy whose first draw is `0` ends up
exposing `1` after filtering, and shrink calls never reach `0`. -/
theorem claim_C7_witness :
    intVT.current (runFilterOps intVT nonZeroPred [FilterOp.s 3, FilterOp.c] 1) ≠ 0 :=
  claim_C7 intStrat intVT (fun _ ht => ht) 2 0 2 1 rfl [FilterOp.s 3, FilterOp.c]

/-- C8: the Map stage's conversion (`i.try_into().unwrap()` to the `NonZero*`
witness type) cannot fail on any value the preceding Filter lets through: the
filter predicate `i != 0` implies the conversion succeeds, and the conversion
fails exactly on the values the filter rejects. -/
theorem claim_C8 :
    (∀ i : Int, nonZeroPred i = true →
      ∃ h : i ≠ 0, tryIntoNonZero i = some ⟨i, h⟩) ∧
    (∀ i : Int, tryIntoNonZero i = none ↔ nonZeroPred i = false) := by
  constructor
  · intro i hi
    have h : i ≠ 0 := by simpa [nonZeroPred] using hi
    refine ⟨h, ?_⟩
    rw [tryIntoNonZero]
    simp [h]
  · intro i
    constructor
    · intro hn
      rw [tryIntoNonZero] at hn
      by_cases h : i = 0
      · simp [nonZeroPred, h]
      · simp [h] at hn
    · intro hp
      have h : i = 0 := by simpa [nonZeroPred] using hp
      rw [tryIntoNonZero]
      simp [h]

/-- Witness for C8: the conversion succeeds on the filtered value `5`. -/
theorem claim_C8_witness : (tryIntoNonZero 5).isSome = true := by
  obtain ⟨h, he⟩ := claim_C8.1 5 (by decide)
  rw [he]
  rfl

/-! ### The EVM leaf generators: claim C9 -/

theorem natToLimbs_limbsToNat (base : Nat) (hb : 0 < base) (l : List Nat)
    (hl : ∀ d ∈ l, d < base) :
    natToLimbs base l.length (limbsToNat base l) = l := by
  induction l with
  | nil => rfl
  | cons d ds ih =>
    have hd : d < base := hl d (List.mem_cons_self d ds)
    have hds : ∀ x ∈ ds, x < base := fun x hx => hl x (List.mem_cons_of_mem d hx)
    simp only [List.length_cons, natToLimbs, limbsToNat]
    rw [Nat.add_mul_mod_self_left, Nat.mod_eq_of_lt hd,
      Nat.add_mul_div_left _ _ hb, Nat.div_eq_of_lt hd]
    simp [ih hds]

/-- C9: both leaf constructions are bit-pattern-preserving injections onto the
representable value space: the big-integer value built from a little-endian
2^64-word block (`prim_impl!`) re-extracts to exactly that block, the hash
value built from a byte block (`hash_impl!`, big-endian significant)
re-extracts to exactly that block, and both constructions are injective on
blocks of the declared width. -/
theorem claim_C9 :
    (∀ (width : Nat) (ws : List Nat), ws.length = width → (∀ d ∈ ws, d < 2 ^ 64) →
      uToWords width (uFromWords ws) = ws) ∧
    (∀ (width : Nat) (bs : List Nat), bs.length = width → (∀ b ∈ bs, b < 256) →
      hToBytes width (hFromBytes bs) = bs) ∧
    (∀ ws ws' : List Nat, ws.length = ws'.length → (∀ d ∈ ws, d < 2 ^ 64) →
      (∀ d ∈ ws', d < 2 ^ 64) → uFromWords ws = uFromWords ws' → ws = ws') ∧
    (∀ bs bs' : List Nat, bs.length = bs'.length → (∀ b ∈ bs, b < 256) →
      (∀ b ∈ bs', b < 256) → hFromBytes bs = hFromBytes bs' → bs = bs') := by
  have hu : ∀ (width : Nat) (ws : List Nat), ws.length = width →
      (∀ d ∈ ws, d < 2 ^ 64) → uToWords width (uFromWords ws) = ws := by
    intro width ws hw hd
    subst hw
    simp only [uToWords, uFromWords]
    exact natToLimbs_limbsToNat (2 ^ 64) (by positivity) ws hd
  have hh : ∀ (width : Nat) (bs : List Nat), bs.length = width →
      (∀ b ∈ bs, b < 256) → hToBytes width (hFromBytes bs) = bs := by
    intro width bs hw hb
    subst hw
    simp only [hToBytes, hFromBytes]
    rw [← List.length_reverse]
    rw [natToLimbs_limbsToNat 256 (by omega) bs.reverse
      (fun b hb' => hb b (List.mem_reverse.mp hb'))]
    exact List.reverse_reverse bs
  refine ⟨hu, hh, ?_, ?_⟩
  · intro ws ws' hlen h1 h2 heq
    calc ws = uToWords ws.length (uFromWords ws) := (hu ws.length ws rfl h1).symm
      _ = uToWords ws'.length (uFromWords ws') := by rw [heq, hlen]
      _ = ws' := hu ws'.length ws' rfl h2
  · intro bs bs' hlen h1 h2 heq
    calc bs = hToBytes bs.length (hFromBytes bs) := (hh bs.length bs rfl h1).symm
      _ = hToBytes bs'.length (hFromBytes bs') := by rw [heq, hlen]
      _ = bs' := hh bs'.length bs' rfl h2

/-- Witness for C9: the two-word block `[3, 4]` (the declared `U128` width)
round-trips. -/
theorem claim_C9_witness : uToWords 2 (uFromWords [3, 4]) = [3, 4] :=
  claim_C9.1 2 [3, 4] rfl (by decide)

end Proptest
